import Mathlib

/-!
Shallow embedding of the periodic-table tutorial pipeline (property-table
builder with manual value patches, train/test partitioner, standard-score
normalizer, the trainer and evaluator call sites, and the plot-trace
builders), together with theorems settling the specification claims.
-/

namespace MLCMS

/-! ### Dataset partitioner

From the SETS cell of the neural-regression notebook:
`train_values = all_values[:44]` and `test_values = all_values[-5:]`,
generalized over the two counts as the spec's Partitioner contract does.
-/

/-- Python `xs[:tc]`: the first `tc` rows form the training partition. -/
def trainSlice {α : Type} (xs : List α) (tc : ℕ) : List α := xs.take tc

/-- Python `xs[-sc:]` (for `1 ≤ sc ≤ length`): the last `sc` rows form the
testing partition. -/
def testSlice {α : Type} (xs : List α) (sc : ℕ) : List α := xs.drop (xs.length - sc)

/-- C3: for all `(tc, sc)` with `tc + sc ≤ row_count`, the training partition
is exactly the first `tc` rows, the testing partition is exactly the last `sc`
rows, their lengths are `tc` and `sc`, and no row index lies in both
partitions (the training partition covers indices below `tc`, the testing
partition covers indices from `length - sc` on, and those ranges are
disjoint). -/
theorem partition_invariant {α : Type} (xs : List α) (tc sc : ℕ)
    (h : tc + sc ≤ xs.length) :
    (trainSlice xs tc).length = tc ∧
    (testSlice xs sc).length = sc ∧
    (∀ i, i < tc → (trainSlice xs tc)[i]? = xs[i]?) ∧
    (∀ j, j < sc → (testSlice xs sc)[j]? = xs[xs.length - sc + j]?) ∧
    (∀ i j, i < tc → j < sc → i ≠ xs.length - sc + j) := by
  refine ⟨?_, ?_, ?_, ?_, ?_⟩
  · simp only [trainSlice, List.length_take]
    omega
  · simp only [testSlice, List.length_drop]
    omega
  · intro i hi
    simp [trainSlice, List.getElem?_take_of_lt hi]
  · intro j hj
    simp [testSlice, List.getElem?_drop]
  · intro i j hi hj
    omega

/-- Witness for C3 at a concrete input. -/
theorem partition_invariant_witness :
    (2 + 1 ≤ [10, 20, 30].length) ∧
    ((trainSlice [10, 20, 30] 2).length = 2 ∧
     (testSlice [10, 20, 30] 1).length = 1 ∧
     (∀ i, i < 2 → (trainSlice [10, 20, 30] 2)[i]? = [10, 20, 30][i]?) ∧
     (∀ j, j < 1 →
        (testSlice [10, 20, 30] 1)[j]? = [10, 20, 30][[10, 20, 30].length - 1 + j]?) ∧
     (∀ i j, i < 2 → j < 1 → i ≠ [10, 20, 30].length - 1 + j)) :=
  ⟨by decide, partition_invariant [10, 20, 30] 2 1 (by decide)⟩

/-! ### Property Table Builder

From the query loop and the `df.iloc` manual patch block of the
neural-regression notebook.  A looked-up value is `some q`; an unknown value
(`None` / `NaN` in the source) is `none`.  The two external lookup sources
(mendeleev's `getattr` and pymatgen's `getattr`) are parameters. -/

/-- The mendeleev property query list, in declared order. -/
def querable_mendeleev : List String :=
  ["atomic_number", "atomic_volume", "boiling_point", "en_ghosh",
   "evaporation_heat", "heat_of_formation", "lattice_constant", "specific_heat"]

/-- The pymatgen property query list, in declared order. -/
def querable_pymatgen : List String :=
  ["atomic_mass", "atomic_radius", "electrical_resistivity", "molar_volume",
   "bulk_modulus", "youngs_modulus", "average_ionic_radius", "density_of_solid",
   "coefficient_of_linear_thermal_expansion"]

/-- `querable_values = querable_mendeleev + querable_pymatgen`. -/
def querable_values : List String := querable_mendeleev ++ querable_pymatgen

/-- One row of the query loop: the mendeleev values then the pymatgen values,
for one element. -/
def buildRow (lm lp : String → Option ℚ) : List (Option ℚ) :=
  querable_mendeleev.map lm ++ querable_pymatgen.map lp

/-- The assembled table (`all_values` turned into the DataFrame `df`):
one row per element, one column per property, in declared order. -/
def buildTable (lm lp : String → String → Option ℚ) (elems : List String) :
    List (List (Option ℚ)) :=
  elems.map fun e => buildRow (lm e) (lp e)

/-- `df.columns.get_loc name`: the position of a property in the declared
column order. -/
def colIdx (name : String) : ℕ := querable_values.indexOf name

/-- One manual override: rows whose `atomic_number` column holds `key` get
`val` written into column `col`. -/
structure Patch where
  key : ℚ
  col : ℕ
  val : ℚ
deriving DecidableEq, Repr

/-- The static patch list of the neural-regression notebook, in source
order: Cs and Rb thermal expansion, Ru evaporation heat, Zr and Ge bulk
modulus, Ge Young's modulus. -/
def patchList : List Patch :=
  [⟨55, colIdx "coefficient_of_linear_thermal_expansion", 97 / 1000000⟩,
   ⟨37, colIdx "coefficient_of_linear_thermal_expansion", 9 / 100000⟩,
   ⟨44, colIdx "evaporation_heat", 595⟩,
   ⟨40, colIdx "bulk_modulus", 94⟩,
   ⟨32, colIdx "bulk_modulus", 772 / 10⟩,
   ⟨32, colIdx "youngs_modulus", 1027 / 10⟩]

/-- `df.iloc[df.index[df['atomic_number'] == key], col] = val`:
set column `p.col` to `p.val` on every row whose atomic-number column
equals `p.key`. -/
def applyPatch (t : List (List (Option ℚ))) (p : Patch) : List (List (Option ℚ)) :=
  t.map fun row =>
    if row.getD (colIdx "atomic_number") none = some p.key
    then row.set p.col (some p.val) else row

/-- The manual-override pass: the patches applied in source order. -/
def applyPatches (t : List (List (Option ℚ))) (ps : List Patch) :
    List (List (Option ℚ)) :=
  ps.foldl applyPatch t

/-- The table after the query loop and the manual-override pass. -/
def patchedTable (lm lp : String → String → Option ℚ) (elems : List String) :
    List (List (Option ℚ)) :=
  applyPatches (buildTable lm lp elems) patchList

/-- The cell of table `t` at row `i`, column `c` (`none` out of range). -/
def cell (t : List (List (Option ℚ))) (i c : ℕ) : Option ℚ :=
  (t.getD i []).getD c none

/-! Small index lemmas used to push `cell` through `applyPatch`. -/

theorem getD_set_self {α : Type} (l : List α) (c : ℕ) (v d : α) (h : c < l.length) :
    (l.set c v).getD c d = v := by
  induction l generalizing c with
  | nil => simp at h
  | cons a l ih =>
    cases c with
    | zero => simp [List.set]
    | succ c => simpa [List.set, List.getD] using ih c (by simpa using h)

theorem getD_set_ne {α : Type} (l : List α) (c k : ℕ) (v d : α) (h : k ≠ c) :
    (l.set c v).getD k d = l.getD k d := by
  induction l generalizing c k with
  | nil => simp [List.set]
  | cons a l ih =>
    cases c with
    | zero =>
      cases k with
      | zero => exact absurd rfl h
      | succ k => simp [List.set, List.getD]
    | succ c =>
      cases k with
      | zero => simp [List.set, List.getD]
      | succ k => simpa [List.set, List.getD] using ih c k (by omega)

theorem set_of_length_le {α : Type} (l : List α) (c : ℕ) (v : α) (h : l.length ≤ c) :
    l.set c v = l := by
  induction l generalizing c with
  | nil => simp
  | cons a l ih =>
    cases c with
    | zero => simp at h
    | succ c => simpa [List.set] using ih c (by simpa using h)

theorem getD_map_row (f : List (Option ℚ) → List (Option ℚ)) (hf : f [] = [])
    (t : List (List (Option ℚ))) (i : ℕ) :
    (t.map f).getD i [] = f (t.getD i []) := by
  induction t generalizing i with
  | nil => simp [List.getD, hf]
  | cons r t ih =>
    cases i with
    | zero => simp [List.getD]
    | succ i => simpa [List.getD] using ih i

theorem cell_applyPatch (t : List (List (Option ℚ))) (p : Patch) (i c : ℕ) :
    cell (applyPatch t p) i c =
      if (t.getD i []).getD (colIdx "atomic_number") none = some p.key
      then ((t.getD i []).set p.col (some p.val)).getD c none
      else (t.getD i []).getD c none := by
  have hf : (fun row => if row.getD (colIdx "atomic_number") none = some p.key
      then row.set p.col (some p.val) else row) ([] : List (Option ℚ)) = [] := by
    simp [List.getD]
  unfold cell applyPatch
  rw [getD_map_row (fun row => if row.getD (colIdx "atomic_number") none = some p.key
      then row.set p.col (some p.val) else row) hf]
  split <;> rfl

/-- A single patch never changes a column other than its own. -/
theorem cell_applyPatch_other (t : List (List (Option ℚ))) (p : Patch) (i c : ℕ)
    (h : c ≠ p.col) : cell (applyPatch t p) i c = cell t i c := by
  rw [cell_applyPatch]
  split
  · rw [getD_set_ne _ _ _ _ _ h]; rfl
  · rfl

/-- A single patch never changes a row whose atomic-number cell differs
from its key. -/
theorem cell_applyPatch_nomatch (t : List (List (Option ℚ))) (p : Patch) (i c : ℕ)
    (h : cell t i (colIdx "atomic_number") ≠ some p.key) :
    cell (applyPatch t p) i c = cell t i c := by
  unfold cell at h
  rw [cell_applyPatch, if_neg h]
  rfl

/-- A single patch preserves every row's length. -/
theorem rowLen_applyPatch (t : List (List (Option ℚ))) (p : Patch) (i : ℕ) :
    ((applyPatch t p).getD i []).length = (t.getD i []).length := by
  have hf : (fun row => if row.getD (colIdx "atomic_number") none = some p.key
      then row.set p.col (some p.val) else row) ([] : List (Option ℚ)) = [] := by
    simp [List.getD]
  unfold applyPatch
  rw [getD_map_row (fun row => if row.getD (colIdx "atomic_number") none = some p.key
      then row.set p.col (some p.val) else row) hf]
  split <;> simp

/-- Later patches that write a different column, or match a different
atomic-number key, preserve a protected cell; no patch in the source list
writes the atomic-number column, so row matching is also preserved. -/
theorem cell_applyPatches_preserve (ps : List Patch) (t : List (List (Option ℚ)))
    (key : ℚ) (i c : ℕ)
    (hanc : cell t i (colIdx "atomic_number") = some key)
    (h0 : ∀ q ∈ ps, q.col ≠ colIdx "atomic_number")
    (hq : ∀ q ∈ ps, q.col ≠ c ∨ q.key ≠ key) :
    cell (applyPatches t ps) i c = cell t i c ∧
    cell (applyPatches t ps) i (colIdx "atomic_number") = some key := by
  induction ps generalizing t with
  | nil => exact ⟨rfl, hanc⟩
  | cons q ps ih =>
    have hanc1 : cell (applyPatch t q) i (colIdx "atomic_number")
        = cell t i (colIdx "atomic_number") :=
      cell_applyPatch_other t q i _ (Ne.symm (h0 q (by simp)))
    have hc1 : cell (applyPatch t q) i c = cell t i c := by
      rcases hq q (by simp) with h | h
      · exact cell_applyPatch_other t q i c (Ne.symm h)
      · refine cell_applyPatch_nomatch t q i c ?_
        rw [hanc]
        intro hcontra
        exact h (Option.some_injective ℚ hcontra).symm
    have step : applyPatches t (q :: ps) = applyPatches (applyPatch t q) ps := rfl
    rw [step]
    have := ih (applyPatch t q) (hanc1.trans hanc)
      (fun r hr => h0 r (by simp [hr])) (fun r hr => hq r (by simp [hr]))
    exact ⟨this.1.trans hc1, this.2⟩

/-- Applying a patch list containing `p` writes `p.val` into column `p.col`
of every row matching `p.key`, provided no patch writes the atomic-number
column and no later patch rewrites the same (key, column) pair. -/
theorem cell_applyPatches_patched (ps : List Patch) (t : List (List (Option ℚ)))
    (p : Patch) (hp : p ∈ ps)
    (h0 : ∀ q ∈ ps, q.col ≠ colIdx "atomic_number")
    (hpw : ps.Pairwise (fun a b => b.col ≠ a.col ∨ b.key ≠ a.key)) (i : ℕ)
    (hm : cell t i (colIdx "atomic_number") = some p.key)
    (hlen : p.col < (t.getD i []).length) :
    cell (applyPatches t ps) i p.col = some p.val := by
  induction ps generalizing t with
  | nil => simp at hp
  | cons q ps ih =>
    obtain ⟨hhead, htail⟩ := List.pairwise_cons.mp hpw
    have step : applyPatches t (q :: ps) = applyPatches (applyPatch t q) ps := rfl
    rw [step]
    rcases List.mem_cons.mp hp with rfl | hp2
    · have hset : cell (applyPatch t p) i p.col = some p.val := by
        rw [cell_applyPatch]
        unfold cell at hm
        rw [if_pos hm]
        exact getD_set_self _ _ _ _ hlen
      have hanc1 : cell (applyPatch t p) i (colIdx "atomic_number") = some p.key := by
        rw [cell_applyPatch_other t p i _ (Ne.symm (h0 p (by simp)))]
        exact hm
      have pres := cell_applyPatches_preserve ps (applyPatch t p) p.key i p.col
        hanc1 (fun r hr => h0 r (by simp [hr])) hhead
      exact pres.1.trans hset
    · have hm1 : cell (applyPatch t q) i (colIdx "atomic_number") = some p.key := by
        rw [cell_applyPatch_other t q i _ (Ne.symm (h0 q (by simp)))]
        exact hm
      have hlen1 : p.col < ((applyPatch t q).getD i []).length := by
        rw [rowLen_applyPatch]
        exact hlen
      exact ih (applyPatch t q) hp2 (fun r hr => h0 r (by simp [hr])) htail hm1 hlen1

/-- Every row the query loop builds has one entry per declared property. -/
theorem buildTable_row_length (lm lp : String → String → Option ℚ)
    (elems : List String) (i : ℕ) (hi : i < elems.length) :
    ((buildTable lm lp elems).getD i []).length = 17 := by
  unfold buildTable
  rw [List.getD_eq_getElem _ _ (by simpa using hi), List.getElem_map]
  simp [buildRow, querable_mendeleev, querable_pymatgen]

/-- C2: for every `(entity, property)` pair in the static patch list, the
builder's output cell holds exactly the literal override value, whatever the
external lookups returned for that cell — patches are applied after the
lookups and take precedence. -/
theorem builder_patch_overrides (lm lp : String → String → Option ℚ)
    (elems : List String) (p : Patch) (hp : p ∈ patchList) (i : ℕ)
    (hm : cell (buildTable lm lp elems) i (colIdx "atomic_number") = some p.key) :
    cell (patchedTable lm lp elems) i p.col = some p.val := by
  have hcols : ∀ q ∈ patchList, q.col < 17 ∧ q.col ≠ colIdx "atomic_number" := by
    decide
  have hi : i < elems.length := by
    by_contra hge
    have hrow : (buildTable lm lp elems).getD i [] = [] := by
      refine List.getD_eq_default _ _ ?_
      simpa [buildTable] using Nat.le_of_not_lt hge
    rw [cell, hrow] at hm
    simp [List.getD] at hm
  have hlen : p.col < ((buildTable lm lp elems).getD i []).length := by
    rw [buildTable_row_length lm lp elems i hi]
    exact (hcols p hp).1
  exact cell_applyPatches_patched patchList _ p hp (fun q hq => (hcols q hq).2)
    (by decide) i hm hlen

/-- A lookup pair under which the CTE of Cs is resolvable both ways. -/
def lmW : String → String → Option ℚ := fun _ pr =>
  if pr = "atomic_number" then some 55 else some 1

/-- Pymatgen-side lookup for the C2 witness: every property resolves. -/
def lpW : String → String → Option ℚ := fun _ _ => some 2

/-- Witness for C2: with lookups that do resolve Cs's thermal-expansion
coefficient, the output cell still holds the literal patch value. -/
theorem builder_patch_overrides_witness :
    cell (patchedTable lmW lpW ["Cs"]) 0
        (colIdx "coefficient_of_linear_thermal_expansion") = some (97 / 1000000) :=
  builder_patch_overrides lmW lpW ["Cs"]
    ⟨55, colIdx "coefficient_of_linear_thermal_expansion", 97 / 1000000⟩
    (by simp [patchList]) 0 (by decide)

/-- A single patch either leaves a cell alone or writes its literal value. -/
theorem cell_applyPatch_cases (t : List (List (Option ℚ))) (p : Patch) (i c : ℕ) :
    cell (applyPatch t p) i c = cell t i c ∨
    cell (applyPatch t p) i c = some p.val := by
  rw [cell_applyPatch]
  unfold cell
  by_cases hmatch : (t.getD i []).getD (colIdx "atomic_number") none = some p.key
  · rw [if_pos hmatch]
    by_cases hc : c = p.col
    · subst hc
      by_cases hlen : p.col < (t.getD i []).length
      · right
        exact getD_set_self _ _ _ _ hlen
      · left
        rw [set_of_length_le _ _ _ (Nat.le_of_not_lt hlen)]
    · left
      rw [getD_set_ne _ _ _ _ _ hc]
  · rw [if_neg hmatch]
    left
    rfl

/-- The manual-override pass never turns a present value into a missing one. -/
theorem cell_applyPatches_ne_none (ps : List Patch) (t : List (List (Option ℚ)))
    (i c : ℕ) (h : cell t i c ≠ none) :
    cell (applyPatches t ps) i c ≠ none := by
  induction ps generalizing t with
  | nil => exact h
  | cons q ps ih =>
    have step : applyPatches t (q :: ps) = applyPatches (applyPatch t q) ps := rfl
    rw [step]
    apply ih
    rcases cell_applyPatch_cases t q i c with hcase | hcase <;> rw [hcase]
    · exact h
    · simp

/-- A lookup pair that resolves silver's atomic number but leaves every other
property unknown: none of those gaps is in the patch list. -/
def lmMissing : String → String → Option ℚ := fun _ pr =>
  if pr = "atomic_number" then some 47 else none

/-- Pymatgen-side lookup for the C6 counterexample: nothing resolves. -/
def lpMissing : String → String → Option ℚ := fun _ _ => none

/-- Counterexample to C6 as stated: with lookups that leave a gap outside the
static patch list (silver's atomic volume, column 1), the table after the
manual-override pass still contains a missing value in an in-range cell. -/
theorem patch_pass_missing_value_counterexample :
    ¬ (∀ i, i < (["Ag"] : List String).length → ∀ c, c < 17 →
        cell (patchedTable lmMissing lpMissing ["Ag"]) i c ≠ none) := by
  intro h
  exact h 0 (by decide) 1 (by decide) (by decide)

/-- C6 amended: the manual-override pass fills every patched cell and never
erases a present value, so the table after the pass has no missing cell
provided every gap the lookups left is covered by a patch-list entry matching
that row's atomic number — a data-dependent premise the code does not check. -/
theorem patch_pass_fills_covered_gaps (lm lp : String → String → Option ℚ)
    (elems : List String)
    (hcov : ∀ i, i < elems.length → ∀ c, c < 17 →
        cell (buildTable lm lp elems) i c = none →
        ∃ p ∈ patchList, p.col = c ∧
          cell (buildTable lm lp elems) i (colIdx "atomic_number") = some p.key) :
    ∀ i, i < elems.length → ∀ c, c < 17 →
      cell (patchedTable lm lp elems) i c ≠ none := by
  intro i hi c hc
  by_cases hmiss : cell (buildTable lm lp elems) i c = none
  · obtain ⟨p, hp, hcol, hkey⟩ := hcov i hi c hc hmiss
    have hcols : ∀ q ∈ patchList, q.col < 17 ∧ q.col ≠ colIdx "atomic_number" := by
      decide
    have hlen : p.col < ((buildTable lm lp elems).getD i []).length := by
      rw [buildTable_row_length lm lp elems i hi]
      exact (hcols p hp).1
    have hfill := cell_applyPatches_patched patchList _ p hp
      (fun q hq => (hcols q hq).2) (by decide) i hkey hlen
    subst hcol
    unfold patchedTable
    rw [hfill]
    simp
  · exact cell_applyPatches_ne_none patchList _ i c hmiss

/-- A lookup pair for the C6 witness: mendeleev resolves Cs's atomic number
and the rest of its own properties, pymatgen leaves exactly the
thermal-expansion coefficient unknown — the one gap the patch list covers. -/
def lmCovered : String → String → Option ℚ := fun _ pr =>
  if pr = "atomic_number" then some 55 else some 1

/-- Pymatgen-side lookup for the C6 witness. -/
def lpCovered : String → String → Option ℚ := fun _ pr =>
  if pr = "coefficient_of_linear_thermal_expansion" then none else some 2

/-- Witness for the amended C6 at a concrete covered gap: the patched cell of
the Cs row is present. -/
theorem patch_pass_fills_covered_gaps_witness :
    cell (patchedTable lmCovered lpCovered ["Cs"]) 0 16 ≠ none :=
  patch_pass_fills_covered_gaps lmCovered lpCovered ["Cs"] (by decide) 0 (by decide)
    16 (by decide)

/-! ### Normalizer

From the NORMALIZATION cell of the neural-regression notebook:
`mean = np.mean(train_values, axis=0)`, `std = np.std(train_values, axis=0)`,
`train_values = (train_values - mean) / std`,
`test_values = (test_values - mean) / std`.  Array arithmetic is embedded
exactly over ℝ; the one place the floats can leave the ordinary numbers —
division by a zero standard deviation — is modelled with numpy's IEEE-754
result (an infinity or NaN sentinel, never an error). -/

noncomputable section

/-- `np.mean` of one column. -/
def mean (xs : List ℝ) : ℝ := xs.sum / xs.length

/-- The population variance (`ddof = 0`) `np.std` takes the root of. -/
def variance (xs : List ℝ) : ℝ :=
  ((xs.map fun x => (x - mean xs) ^ 2).sum) / xs.length

/-- `np.std` of one column. -/
def std (xs : List ℝ) : ℝ := Real.sqrt (variance xs)

/-- Column `j` of a row-major table (out-of-range entries read as 0; every
claim constrains `j` to the declared column range). -/
def col (t : List (List ℝ)) (j : ℕ) : List ℝ := t.map fun r => r.getD j 0

/-- One entry of a numpy float array after the scaling division: an ordinary
(finite) number, an infinity, or NaN. -/
inductive NpVal where
  | fin (x : ℝ)
  | posInf
  | negInf
  | nan

/-- Whether a numpy value is an ordinary finite number. -/
def NpVal.finite : NpVal → Bool
  | .fin _ => true
  | _ => false

/-- The payload of a finite numpy value (0 for the non-finite sentinels). -/
def NpVal.toReal : NpVal → ℝ
  | .fin x => x
  | _ => 0

/-- Division as numpy performs it on float arrays (IEEE-754): dividing by
zero yields an infinity, zero over zero yields NaN; it never raises. -/
def npdiv (x y : ℝ) : NpVal :=
  if y = 0 then (if x = 0 then NpVal.nan else if 0 < x then NpVal.posInf else NpVal.negInf)
  else NpVal.fin (x / y)

/-- `np.mean(train_values, axis=0)`: the per-column means. -/
def meanVec (t : List (List ℝ)) (ncols : ℕ) : List ℝ :=
  (List.range ncols).map fun j => mean (col t j)

/-- `np.std(train_values, axis=0)`: the per-column standard deviations. -/
def stdVec (t : List (List ℝ)) (ncols : ℕ) : List ℝ :=
  (List.range ncols).map fun j => std (col t j)

/-- `(t - mv) / sv`: elementwise standard-score scaling with the given
statistics vectors. -/
def normalizeWith (mv sv : List ℝ) (t : List (List ℝ)) (ncols : ℕ) :
    List (List NpVal) :=
  t.map fun r => (List.range ncols).map fun j =>
    npdiv (r.getD j 0 - mv.getD j 0) (sv.getD j 0)

/-- The four arrays the SETS + NORMALIZATION cell produces. -/
structure NormalizedData where
  trainValues : List (List NpVal)
  trainLabels : List ℝ
  testValues : List (List NpVal)
  testLabels : List ℝ

/-- The partition-and-normalize pipeline: slice the first `tc` rows as
training and the last `sc` rows as testing, compute per-column mean and
standard deviation over the training slice only, and rescale both slices
with those training statistics. -/
def partitionNormalize (values : List (List ℝ)) (labels : List ℝ)
    (tc sc ncols : ℕ) : NormalizedData :=
  { trainValues := normalizeWith (meanVec (trainSlice values tc) ncols)
      (stdVec (trainSlice values tc) ncols) (trainSlice values tc) ncols
    trainLabels := trainSlice labels tc
    testValues := normalizeWith (meanVec (trainSlice values tc) ncols)
      (stdVec (trainSlice values tc) ncols) (testSlice values sc) ncols
    testLabels := testSlice labels sc }

/-- Column `j` of a normalized table, read back as reals. -/
def colVal (t : List (List NpVal)) (j : ℕ) : List ℝ :=
  t.map fun r => (r.getD j NpVal.nan).toReal

end

/-- C1: the rescaling statistics are computed from the training rows only —
any two datasets agreeing on the training prefix yield identical normalized
training features, whatever their testing rows hold — and those same
training statistics are applied elementwise to the testing slice. -/
theorem normalization_train_stats_only
    (values values2 : List (List ℝ)) (labels labels2 : List ℝ)
    (tc sc sc2 ncols : ℕ)
    (h : trainSlice values tc = trainSlice values2 tc) :
    (partitionNormalize values labels tc sc ncols).trainValues
      = (partitionNormalize values2 labels2 tc sc2 ncols).trainValues ∧
    (partitionNormalize values labels tc sc ncols).testValues
      = normalizeWith (meanVec (trainSlice values tc) ncols)
          (stdVec (trainSlice values tc) ncols) (testSlice values sc) ncols := by
  constructor
  · simp only [partitionNormalize, h]
  · rfl

/-- Witness for C1: two datasets sharing the two training rows but differing
in the testing row. -/
theorem normalization_train_stats_only_witness :
    (trainSlice [[(1 : ℝ)], [2], [5]] 2 = trainSlice [[(1 : ℝ)], [2], [7]] 2) ∧
    ((partitionNormalize [[(1 : ℝ)], [2], [5]] [0, 0, 0] 2 1 1).trainValues
      = (partitionNormalize [[(1 : ℝ)], [2], [7]] [3, 3, 3] 2 1 1).trainValues ∧
     (partitionNormalize [[(1 : ℝ)], [2], [5]] [0, 0, 0] 2 1 1).testValues
      = normalizeWith (meanVec (trainSlice [[(1 : ℝ)], [2], [5]] 2) 1)
          (stdVec (trainSlice [[(1 : ℝ)], [2], [5]] 2) 1)
          (testSlice [[(1 : ℝ)], [2], [5]] 1) 1) :=
  ⟨rfl, normalization_train_stats_only [[(1 : ℝ)], [2], [5]] [[(1 : ℝ)], [2], [7]]
    [0, 0, 0] [3, 3, 3] 2 1 1 1 rfl⟩

/-- Dividing by zero never produces an ordinary finite numpy value. -/
theorem npdiv_zero_not_finite (x : ℝ) : (npdiv x 0).finite = false := by
  unfold npdiv
  rw [if_pos rfl]
  by_cases h0 : x = 0
  · rw [if_pos h0]
    rfl
  · rw [if_neg h0]
    by_cases hp : 0 < x
    · rw [if_pos hp]
      rfl
    · rw [if_neg hp]
      rfl

/-- Sum of a constant list. -/
theorem sum_of_constant (xs : List ℝ) (c : ℝ) (h : ∀ x ∈ xs, x = c) :
    xs.sum = xs.length * c := by
  induction xs with
  | nil => simp
  | cons a l ih =>
    rw [List.sum_cons, ih (fun x hx => h x (List.mem_cons_of_mem _ hx)),
      h a (List.mem_cons_self _ _), List.length_cons]
    push_cast
    ring

/-- Mean of a nonempty constant list. -/
theorem mean_of_constant (xs : List ℝ) (c : ℝ) (hne : xs ≠ [])
    (h : ∀ x ∈ xs, x = c) : mean xs = c := by
  have hlen : (xs.length : ℝ) ≠ 0 := by
    have := List.length_pos.mpr hne
    positivity
  unfold mean
  rw [sum_of_constant xs c h]
  field_simp

/-- A constant column has zero variance. -/
theorem variance_of_constant (xs : List ℝ) (c : ℝ) (hne : xs ≠ [])
    (h : ∀ x ∈ xs, x = c) : variance xs = 0 := by
  unfold variance
  rw [mean_of_constant xs c hne h]
  have hz : (xs.map fun x => (x - c) ^ 2).sum = 0 := by
    apply List.sum_eq_zero
    intro y hy
    obtain ⟨x, hx, rfl⟩ := List.mem_map.mp hy
    rw [h x hx]
    ring
  rw [hz]
  simp

/-- A constant column has zero standard deviation. -/
theorem std_of_constant (xs : List ℝ) (c : ℝ) (hne : xs ≠ [])
    (h : ∀ x ∈ xs, x = c) : std xs = 0 := by
  unfold std
  rw [variance_of_constant xs c hne h]
  exact Real.sqrt_zero

/-- Reading entry `j` of a mapped range. -/
theorem getD_map_range {α : Type} (f : ℕ → α) (n j : ℕ) (d : α) (h : j < n) :
    ((List.range n).map f).getD j d = f j := by
  rw [List.getD_eq_getElem _ _ (by simpa using h), List.getElem_map,
    List.getElem_range]

/-- Scaling with a zero standard deviation in column `j` leaves no finite
value anywhere in that column. -/
theorem normalizeWith_zero_std_not_finite (mv sv : List ℝ)
    (t : List (List ℝ)) (ncols j : ℕ) (hj : j < ncols)
    (hsv : sv.getD j 0 = 0) :
    ∀ row ∈ normalizeWith mv sv t ncols, (row.getD j NpVal.nan).finite = false := by
  intro row hrow
  obtain ⟨r, hr, rfl⟩ := List.mem_map.mp hrow
  rw [getD_map_range _ _ _ _ hj, hsv]
  exact npdiv_zero_not_finite _

/-- C4: a feature column constant across all training rows has zero training
standard deviation, and the normalization division then produces only the
defined non-finite sentinels (NaN or an infinity) in that column of the
training and testing outputs — never an ordinary finite number. -/
theorem zero_variance_column_not_finite
    (values : List (List ℝ)) (labels : List ℝ) (tc sc ncols j : ℕ) (c : ℝ)
    (hj : j < ncols) (hne : trainSlice values tc ≠ [])
    (hconst : ∀ x ∈ col (trainSlice values tc) j, x = c) :
    (∀ row ∈ (partitionNormalize values labels tc sc ncols).trainValues,
        (row.getD j NpVal.nan).finite = false) ∧
    (∀ row ∈ (partitionNormalize values labels tc sc ncols).testValues,
        (row.getD j NpVal.nan).finite = false) := by
  have hcolne : col (trainSlice values tc) j ≠ [] := by
    unfold col
    simpa using hne
  have hsv : (stdVec (trainSlice values tc) ncols).getD j 0 = 0 := by
    unfold stdVec
    rw [getD_map_range _ _ _ _ hj]
    exact std_of_constant _ c hcolne hconst
  exact ⟨normalizeWith_zero_std_not_finite _ _ _ _ _ hj hsv,
    normalizeWith_zero_std_not_finite _ _ _ _ _ hj hsv⟩

/-- Witness for C4: a training column constant at 3, with a differing
testing row. -/
theorem zero_variance_column_not_finite_witness :
    (∀ row ∈ (partitionNormalize [[(3 : ℝ)], [3], [7]] [0, 0, 0] 2 1 1).trainValues,
        (row.getD 0 NpVal.nan).finite = false) ∧
    (∀ row ∈ (partitionNormalize [[(3 : ℝ)], [3], [7]] [0, 0, 0] 2 1 1).testValues,
        (row.getD 0 NpVal.nan).finite = false) :=
  zero_variance_column_not_finite [[(3 : ℝ)], [3], [7]] [0, 0, 0] 2 1 1 0 3
    (by decide) (by simp [trainSlice])
    (by intro x hx; simp [col, trainSlice] at hx; exact hx)

/-- Sum after centering and scaling a column. -/
theorem sum_map_sub_div (xs : List ℝ) (a b : ℝ) :
    (xs.map fun x => (x - a) / b).sum = (xs.sum - xs.length * a) / b := by
  induction xs with
  | nil => simp
  | cons x l ih =>
    rw [List.map_cons, List.sum_cons, ih, List.sum_cons, List.length_cons]
    push_cast
    ring

/-- Sum of squares after centering and scaling a column. -/
theorem sum_map_sq_sub_div (xs : List ℝ) (a b : ℝ) :
    (xs.map fun x => ((x - a) / b) ^ 2).sum
      = (xs.map fun x => (x - a) ^ 2).sum / b ^ 2 := by
  induction xs with
  | nil => simp
  | cons x l ih =>
    rw [List.map_cons, List.sum_cons, ih, List.map_cons, List.sum_cons]
    ring

/-- The population variance is nonnegative. -/
theorem variance_nonneg (xs : List ℝ) : 0 ≤ variance xs := by
  unfold variance
  apply div_nonneg
  · apply List.sum_nonneg
    intro y hy
    obtain ⟨x, hx, rfl⟩ := List.mem_map.mp hy
    positivity
  · positivity

/-- Scaling with a nonzero standard deviation in column `j` leaves every
entry of that column finite. -/
theorem normalizeWith_col_finite (mv sv : List ℝ) (t : List (List ℝ))
    (ncols j : ℕ) (hj : j < ncols) (hsv : sv.getD j 0 ≠ 0) :
    ∀ row ∈ normalizeWith mv sv t ncols, (row.getD j NpVal.nan).finite = true := by
  intro row hrow
  obtain ⟨r, hr, rfl⟩ := List.mem_map.mp hrow
  rw [getD_map_range _ _ _ _ hj]
  unfold npdiv
  rw [if_neg hsv]
  rfl

/-- With a nonzero standard deviation in column `j`, the normalized column
read back as reals is the centered, scaled source column. -/
theorem colVal_normalizeWith (mv sv : List ℝ) (t : List (List ℝ))
    (ncols j : ℕ) (hj : j < ncols) (hsv : sv.getD j 0 ≠ 0) :
    colVal (normalizeWith mv sv t ncols) j
      = (col t j).map fun x => (x - mv.getD j 0) / sv.getD j 0 := by
  unfold colVal normalizeWith col
  rw [List.map_map, List.map_map]
  apply List.map_congr_left
  intro r hr
  simp only [Function.comp]
  rw [getD_map_range _ _ _ _ hj]
  unfold npdiv
  rw [if_neg hsv]
  rfl

/-- C5: for every feature column of the training partition with nonzero
training-set variance, the normalized training column is entirely finite and
has mean exactly 0 and standard deviation exactly 1 under exact arithmetic. -/
theorem normalized_train_column_standardized
    (values : List (List ℝ)) (labels : List ℝ) (tc sc ncols j : ℕ)
    (hj : j < ncols)
    (hvar : variance (col (trainSlice values tc) j) ≠ 0) :
    (∀ row ∈ (partitionNormalize values labels tc sc ncols).trainValues,
        (row.getD j NpVal.nan).finite = true) ∧
    mean (colVal (partitionNormalize values labels tc sc ncols).trainValues j) = 0 ∧
    std (colVal (partitionNormalize values labels tc sc ncols).trainValues j) = 1 := by
  set xs := col (trainSlice values tc) j with hxs
  have hxs_ne : xs ≠ [] := by
    intro hnil
    rw [hnil] at hvar
    simp [variance, mean] at hvar
  have hn : (xs.length : ℝ) ≠ 0 := by
    have := List.length_pos.mpr hxs_ne
    positivity
  have hvpos : 0 < variance xs := lt_of_le_of_ne (variance_nonneg xs) (Ne.symm hvar)
  have hs_pos : 0 < std xs := Real.sqrt_pos.mpr hvpos
  have hs_ne : std xs ≠ 0 := ne_of_gt hs_pos
  have hsq : std xs ^ 2 = variance xs := Real.sq_sqrt (variance_nonneg xs)
  have hmv : (meanVec (trainSlice values tc) ncols).getD j 0 = mean xs := by
    unfold meanVec
    rw [getD_map_range _ _ _ _ hj]
  have hsv : (stdVec (trainSlice values tc) ncols).getD j 0 = std xs := by
    unfold stdVec
    rw [getD_map_range _ _ _ _ hj]
  have hsv_ne : (stdVec (trainSlice values tc) ncols).getD j 0 ≠ 0 := by
    rw [hsv]
    exact hs_ne
  have hcolval : colVal (partitionNormalize values labels tc sc ncols).trainValues j
      = xs.map fun x => (x - mean xs) / std xs := by
    show colVal (normalizeWith _ _ _ ncols) j = _
    rw [colVal_normalizeWith _ _ _ _ _ hj hsv_ne, hmv, hsv]
  have hsum : xs.sum = xs.length * mean xs := by
    unfold mean
    field_simp
  have hmean0 : mean (xs.map fun x => (x - mean xs) / std xs) = 0 := by
    show ((xs.map fun x => (x - mean xs) / std xs).sum
        / ((xs.map fun x => (x - mean xs) / std xs).length : ℕ) : ℝ) = 0
    rw [sum_map_sub_div, List.length_map, hsum]
    simp
  refine ⟨normalizeWith_col_finite _ _ _ _ _ hj hsv_ne, ?_, ?_⟩
  · rw [hcolval]
    exact hmean0
  · rw [hcolval]
    have hv1 : variance (xs.map fun x => (x - mean xs) / std xs) = 1 := by
      unfold variance
      rw [hmean0, List.length_map, List.map_map]
      have heq : ((fun y => (y - 0) ^ 2) ∘ fun x => (x - mean xs) / std xs)
          = fun x => ((x - mean xs) / std xs) ^ 2 := by
        funext x
        simp
      rw [heq, sum_map_sq_sub_div, hsq]
      have hvar_def : variance xs
          = ((xs.map fun x => (x - mean xs) ^ 2).sum) / xs.length := rfl
      have hS : ((xs.map fun x => (x - mean xs) ^ 2).sum)
          = variance xs * xs.length := by
        rw [hvar_def, div_mul_cancel₀ _ hn]
      rw [hS]
      field_simp
    show Real.sqrt (variance (xs.map fun x => (x - mean xs) / std xs)) = 1
    rw [hv1]
    exact Real.sqrt_one

/-- Witness for C5: a 2-row training column `[0, 2]`, whose variance is 1. -/
theorem normalized_train_column_standardized_witness :
    (∀ row ∈ (partitionNormalize [[(0 : ℝ)], [2]] [0, 0] 2 0 1).trainValues,
        (row.getD 0 NpVal.nan).finite = true) ∧
    mean (colVal (partitionNormalize [[(0 : ℝ)], [2]] [0, 0] 2 0 1).trainValues 0) = 0 ∧
    std (colVal (partitionNormalize [[(0 : ℝ)], [2]] [0, 0] 2 0 1).trainValues 0) = 1 :=
  normalized_train_column_standardized [[(0 : ℝ)], [2]] [0, 0] 2 0 1 0 (by decide)
    (by norm_num [variance, mean, col, trainSlice, List.getD])

/-! ### Model Trainer call

From the TRAINING cell of the neural-regression notebook:
`model.fit(train_values, train_labels, batch_size=train_values.shape[0],
epochs=EPOCHS, verbose=False, shuffle=False, validation_split=0.1,
callbacks=[PrintEpNum()])` with `EPOCHS = 2000` on the 44-row training
partition (classification notebook: `EPOCHS = 300` on its 40-row training
partition).  The fitting loop itself is the external Keras collaborator,
so its contract is modelled from the spec. -/

/-- `EPOCHS = 2000` from the neural-regression notebook. -/
def EPOCHS : ℕ := 2000

/-- The `PrintEpNum` callback: it writes a progress line at each epoch end
and never requests that training stop. -/
def printEpNumStopRequest : ℕ → Bool := fun _ => false

/-- The arguments of a `model.fit` call observable by claim C7. -/
structure FitArgs where
  epochs : ℕ
  batchSize : ℕ
  validationSplit : ℚ
  stopRequest : ℕ → Bool

/-- What one `model.fit` run does, as far as claim C7 observes it. -/
structure FitRun where
  passesRun : ℕ
  batchesPerPass : ℕ
  trainedRows : List ℕ
  validationRows : List ℕ

/-- Modelled from the spec: the external gradient-based fitting collaborator
splits the trailing `validationSplit` fraction of the `n` supplied rows off
as a validation slice used only for progress reporting, runs full passes
over the remaining rows in batches of `batchSize`, and performs exactly
`epochs` passes unless some callback requests an early stop. -/
def fitModel (n : ℕ) (a : FitArgs) : FitRun :=
  let boundary := (((n : ℚ) * (1 - a.validationSplit)).floor).toNat
  { passesRun := ((List.range a.epochs).takeWhile fun e => !a.stopRequest e).length
    batchesPerPass := (boundary + a.batchSize - 1) / a.batchSize
    trainedRows := (List.range n).take boundary
    validationRows := (List.range n).drop boundary }

/-- The fit call of the neural-regression notebook (batch size = the full
44-row training partition). -/
def fitCallRegression : FitArgs :=
  { epochs := EPOCHS, batchSize := 44, validationSplit := 1 / 10,
    stopRequest := printEpNumStopRequest }

/-- The fit call of the classification notebook (batch size = its full
40-row training partition). -/
def fitCallClassification : FitArgs :=
  { epochs := 300, batchSize := 40, validationSplit := 1 / 10,
    stopRequest := printEpNumStopRequest }

/-- `takeWhile` under an always-true predicate keeps the whole list. -/
theorem takeWhile_always {α : Type} (l : List α) :
    (l.takeWhile fun _ => true) = l := by
  induction l with
  | nil => rfl
  | cons a l ih => simp [List.takeWhile, ih]

/-- A fit whose callbacks never request a stop runs every declared pass. -/
theorem fitModel_passes (n : ℕ) (a : FitArgs) (h : ∀ e, a.stopRequest e = false) :
    (fitModel n a).passesRun = a.epochs := by
  show ((List.range a.epochs).takeWhile fun e => !a.stopRequest e).length = a.epochs
  have hfun : (fun e => !a.stopRequest e) = fun _ : ℕ => true := by
    funext e
    rw [h e]
    rfl
  rw [hfun, takeWhile_always, List.length_range]

/-- C7: both neural fit calls run exactly the declared number of passes
(the print-only callback never stops training early), process the
non-held-out rows as a single batch per pass, and hold out a nonempty
trailing slice of the supplied training partition — indices all inside the
training partition, so never the testing partition — for validation. -/
theorem trainer_fixed_epochs_one_batch :
    (fitModel 44 fitCallRegression).passesRun = 2000 ∧
    (fitModel 44 fitCallRegression).batchesPerPass = 1 ∧
    (∀ i ∈ (fitModel 44 fitCallRegression).validationRows, i < 44) ∧
    (fitModel 44 fitCallRegression).validationRows ≠ [] ∧
    (fitModel 40 fitCallClassification).passesRun = 300 ∧
    (fitModel 40 fitCallClassification).batchesPerPass = 1 ∧
    (∀ i ∈ (fitModel 40 fitCallClassification).validationRows, i < 40) ∧
    (fitModel 40 fitCallClassification).validationRows ≠ [] := by
  have hpass1 : (fitModel 44 fitCallRegression).passesRun = 2000 :=
    fitModel_passes 44 fitCallRegression (fun _ => rfl)
  have hpass2 : (fitModel 40 fitCallClassification).passesRun = 300 :=
    fitModel_passes 40 fitCallClassification (fun _ => rfl)
  have hb1 : (((44 : ℚ) * (1 - 1 / 10)).floor).toNat = 39 := by
    norm_num [Rat.floor_def']
    rfl
  have hb2 : (((40 : ℚ) * (1 - 1 / 10)).floor).toNat = 36 := by
    norm_num [Rat.floor_def']
    rfl
  refine ⟨hpass1, ?_, ?_, ?_, hpass2, ?_, ?_, ?_⟩
  · show ((((44 : ℚ) * (1 - 1 / 10)).floor).toNat + 44 - 1) / 44 = 1
    rw [hb1]
  · show ∀ i ∈ (List.range 44).drop (((44 : ℚ) * (1 - 1 / 10)).floor).toNat, i < 44
    rw [hb1]
    decide
  · show (List.range 44).drop (((44 : ℚ) * (1 - 1 / 10)).floor).toNat ≠ []
    rw [hb1]
    decide
  · show ((((40 : ℚ) * (1 - 1 / 10)).floor).toNat + 40 - 1) / 40 = 1
    rw [hb2]
  · show ∀ i ∈ (List.range 40).drop (((40 : ℚ) * (1 - 1 / 10)).floor).toNat, i < 40
    rw [hb2]
    decide
  · show (List.range 40).drop (((40 : ℚ) * (1 - 1 / 10)).floor).toNat ≠ []
    rw [hb2]
    decide

/-! ### Evaluator

The aggregate-error entry points: the linear-regression notebook's
`regression` function prints `mean_squared_error(full_y, predictions)` (and
`r2_score`); the neural-regression notebook compiles with
`metrics=['mae']` and `model.evaluate` returns that metric; the
classification notebook compiles with `metrics=['accuracy']`.  The metric
formulas live in the external collaborators and are modelled from the
spec's description of them. -/

/-- sklearn's `mean_squared_error`, as the linear-regression notebook
reports it. -/
def meanSquaredError (actuals preds : List ℚ) : ℚ :=
  (((actuals.zip preds).map fun p => (p.1 - p.2) ^ 2).sum)
    / (actuals.zip preds).length

/-- Keras's `mae` metric, as the neural-regression notebook's evaluate call
returns it. -/
def meanAbsoluteError (actuals preds : List ℚ) : ℚ :=
  (((actuals.zip preds).map fun p => |p.1 - p.2|).sum)
    / (actuals.zip preds).length

/-- `np.argmax` over one row: the index of the first maximal entry. -/
def argmaxIdx (xs : List ℚ) : ℕ :=
  (xs.enum.foldl (fun best p => if best.2 < p.2 then p else best) (0, xs.headD 0)).1

/-- Modelled from the spec: Keras's categorical `accuracy` metric — the
fraction of rows whose prediction argmax equals the label argmax. -/
def categoricalAccuracy (preds trues : List (List ℚ)) : ℚ :=
  (((preds.zip trues).countP fun p => decide (argmaxIdx p.1 = argmaxIdx p.2) : ℕ) : ℚ)
    / (preds.zip trues).length

/-- The neural-regression notebook's aggregate-error entry point:
`[loss, mae] = model.evaluate(...)` with the compiled `mae` metric. -/
def nnRegEvaluate (preds actuals : List ℚ) : ℚ := meanAbsoluteError actuals preds

/-- The classification notebook's aggregate-error entry point:
`loss, acc = model.evaluate(...)` with the compiled `accuracy` metric. -/
def classifierEvaluate (preds trues : List (List ℚ)) : ℚ :=
  categoricalAccuracy preds trues

/-- The linear-regression notebook's aggregate-error report:
`mean_squared_error(full_y, predictions)`. -/
def linregAggregateError (actuals preds : List ℚ) : ℚ :=
  meanSquaredError actuals preds

/-- The class a one-hot label row encodes. -/
def oneHotClass (t : List ℚ) : ℕ :=
  if t = [1, 0, 0] then 0 else if t = [0, 1, 0] then 1 else 2

/-- Counterexample to C8 as stated: the linear-regression variant's
aggregate error is the mean squared error, which already differs from the
mean absolute error at `actuals = [0, 0]`, `preds = [0, 2]` (2 versus 1). -/
theorem linreg_aggregate_not_mae_counterexample :
    linregAggregateError [0, 0] [0, 2] ≠ meanAbsoluteError [0, 0] [0, 2] := by
  norm_num [linregAggregateError, meanAbsoluteError, meanSquaredError]

/-- C8 amended: the neural-regression evaluate call returns the mean
absolute error and the classification evaluate call returns the fraction of
rows whose predicted class — the index of the maximum predicted score —
equals the true one-hot class; the linear-regression variant, however,
reports the mean squared error (and r²), not the mean absolute error. -/
theorem evaluator_aggregate_metrics (preds trues : List (List ℚ))
    (ps as : List ℚ)
    (h : ∀ t ∈ trues, t = [1, 0, 0] ∨ t = [0, 1, 0] ∨ t = [0, 0, 1]) :
    classifierEvaluate preds trues
      = (((preds.zip trues).countP fun p =>
            decide (argmaxIdx p.1 = oneHotClass p.2) : ℕ) : ℚ)
        / (preds.zip trues).length ∧
    nnRegEvaluate ps as = meanAbsoluteError as ps ∧
    linregAggregateError as ps = meanSquaredError as ps := by
  refine ⟨?_, rfl, rfl⟩
  unfold classifierEvaluate categoricalAccuracy
  have hcount : (preds.zip trues).countP
        (fun p => decide (argmaxIdx p.1 = argmaxIdx p.2))
      = (preds.zip trues).countP
        (fun p => decide (argmaxIdx p.1 = oneHotClass p.2)) := by
    apply List.countP_congr
    intro p hp
    have ht : p.2 ∈ trues := (List.of_mem_zip hp).2
    have : argmaxIdx p.2 = oneHotClass p.2 := by
      rcases h p.2 ht with h1 | h1 | h1 <;> rw [h1] <;> decide
    rw [this]
  rw [hcount]

/-- Witness for the amended C8 at a concrete input: one correctly
classified row. -/
theorem evaluator_aggregate_metrics_witness :
    classifierEvaluate [[0, 0, 1]] [[0, 0, 1]]
      = ((([[(0 : ℚ), 0, 1]].zip [[(0 : ℚ), 0, 1]]).countP fun p =>
            decide (argmaxIdx p.1 = oneHotClass p.2) : ℕ) : ℚ)
        / ([[(0 : ℚ), 0, 1]].zip [[(0 : ℚ), 0, 1]]).length ∧
    nnRegEvaluate [1, 2] [3, 4] = meanAbsoluteError [3, 4] [1, 2] ∧
    linregAggregateError [3, 4] [1, 2] = meanSquaredError [3, 4] [1, 2] :=
  evaluator_aggregate_metrics [[0, 0, 1]] [[0, 0, 1]] [1, 2] [3, 4] (by decide)

/-! ### Result Visualizer

From the Plotting cell of the neural-regression notebook:
`trace0 = go.Scatter(x=all_labels, y=predictions, ..., name="Young's
Modulus (Training)")` and `trace1 = go.Scatter(x=test_labels,
y=test_predictions, ..., name="Young's Modulus (Testing)")`, where
`predictions = model.predict(np.concatenate((train_values, test_values)))`
covers the whole dataset; and the `plot` function of the linear-regression
notebook, whose `training`/`actual` traces receive the already-sliced
partitions. -/

/-- One scatter trace: its legend tag and its point coordinates. -/
structure Trace where
  tag : String
  xs : List ℚ
  ys : List ℚ

/-- `trace0` of the neural-regression notebook, built from `all_labels` and
the predictions over the concatenated partitions. -/
def trainingTrace (allLabels predictions : List ℚ) : Trace :=
  { tag := "Training", xs := allLabels, ys := predictions }

/-- `trace1` of the neural-regression notebook. -/
def testingTrace (testLabels testPredictions : List ℚ) : Trace :=
  { tag := "Testing", xs := testLabels, ys := testPredictions }

/-- The `training` trace of the linear-regression notebook's `plot`. -/
def linregTrainingTrace (xTrain yTrain : List ℚ) : Trace :=
  { tag := "Training Data", xs := xTrain, ys := yTrain }

/-- The `actual` (testing) trace of the linear-regression notebook's
`plot`. -/
def linregTestingTrace (xTest yTest : List ℚ) : Trace :=
  { tag := "Testing Data", xs := xTest, ys := yTest }

/-- The 49 label values of the neural-regression chart, at the notebook's
sizes (44 training rows + 5 testing rows). -/
def demoLabels : List ℚ := (List.range 49).map fun n : ℕ => (n : ℚ)

/-- 49 prediction values for the same chart. -/
def demoPreds : List ℚ := (List.range 49).map fun n : ℕ => (n : ℚ) + 1

/-- Counterexample to C9 as stated: the series tagged as training in the
neural-regression chart is built from all 49 points, so it is not the
44-point training partition. -/
theorem visualizer_training_trace_counterexample :
    (trainingTrace demoLabels demoPreds).xs ≠ trainSlice demoLabels 44 := by
  intro h
  have h49 : demoLabels.length = 49 := by
    unfold demoLabels
    rw [List.length_map, List.length_range]
  have h44 : (trainSlice demoLabels 44).length = 44 := by
    unfold trainSlice
    rw [List.length_take, h49]
    decide
  have hlen := congrArg List.length h
  have hlen2 : demoLabels.length = (trainSlice demoLabels 44).length := hlen
  rw [h49, h44] at hlen2
  exact absurd hlen2 (by decide)

/-- C9 amended: the testing-tagged series is exactly the testing partition
in both notebooks, and the linear-regression chart's training-tagged series
is exactly the training partition it receives; the neural-regression
chart's training-tagged series, however, holds the whole dataset — the
training partition followed by the testing partition. -/
theorem visualizer_trace_contents (allL allP xTr yTr xTe yTe : List ℚ)
    (tc sc : ℕ) (hL : allL.length = tc + sc) (hP : allP.length = tc + sc) :
    (trainingTrace allL allP).xs = trainSlice allL tc ++ testSlice allL sc ∧
    (trainingTrace allL allP).ys = trainSlice allP tc ++ testSlice allP sc ∧
    (testingTrace (testSlice allL sc) (testSlice allP sc)).xs = testSlice allL sc ∧
    (testingTrace (testSlice allL sc) (testSlice allP sc)).ys = testSlice allP sc ∧
    (linregTrainingTrace xTr yTr).xs = xTr ∧
    (linregTrainingTrace xTr yTr).ys = yTr ∧
    (linregTestingTrace xTe yTe).xs = xTe ∧
    (linregTestingTrace xTe yTe).ys = yTe := by
  refine ⟨?_, ?_, rfl, rfl, rfl, rfl, rfl, rfl⟩
  · show allL = trainSlice allL tc ++ testSlice allL sc
    unfold trainSlice testSlice
    rw [show allL.length - sc = tc by omega]
    exact (List.take_append_drop tc allL).symm
  · show allP = trainSlice allP tc ++ testSlice allP sc
    unfold trainSlice testSlice
    rw [show allP.length - sc = tc by omega]
    exact (List.take_append_drop tc allP).symm

/-- Witness for the amended C9 at a concrete 2 + 1 split. -/
theorem visualizer_trace_contents_witness :
    (trainingTrace [1, 2, 3] [4, 5, 6]).xs
      = trainSlice [(1 : ℚ), 2, 3] 2 ++ testSlice [(1 : ℚ), 2, 3] 1 ∧
    (trainingTrace [1, 2, 3] [4, 5, 6]).ys
      = trainSlice [(4 : ℚ), 5, 6] 2 ++ testSlice [(4 : ℚ), 5, 6] 1 ∧
    (testingTrace (testSlice [(1 : ℚ), 2, 3] 1) (testSlice [(4 : ℚ), 5, 6] 1)).xs
      = testSlice [(1 : ℚ), 2, 3] 1 ∧
    (testingTrace (testSlice [(1 : ℚ), 2, 3] 1) (testSlice [(4 : ℚ), 5, 6] 1)).ys
      = testSlice [(4 : ℚ), 5, 6] 1 ∧
    (linregTrainingTrace [7] [8]).xs = [7] ∧
    (linregTrainingTrace [7] [8]).ys = [8] ∧
    (linregTestingTrace [9] [10]).xs = [9] ∧
    (linregTestingTrace [9] [10]).ys = [10] :=
  visualizer_trace_contents [1, 2, 3] [4, 5, 6] [7] [8] [9] [10] 2 1
    (by decide) (by decide)

/-! ### Classification dataset assembly

From the classification notebook: the three declared element lists, and the
query loop that appends one feature row per element and, through an
`if/elif` chain, one one-hot crystal-structure label row in the same
iteration. -/

/-- The declared fcc element list of the classification notebook. -/
def fcc_elements : List String :=
  ["Ag", "Al", "Au", "Cu", "Ir", "Ni", "Pb", "Pd", "Pt", "Rh", "Th", "Yb"]

/-- The declared bcc element list of the classification notebook. -/
def bcc_elements : List String :=
  ["Ba", "Ca", "Cr", "Cs", "Eu", "Fe", "Li", "Mn", "Mo", "Na", "Nb", "Rb",
   "Ta", "V", "W"]

/-- The declared hcp element list of the classification notebook. -/
def hcp_elements : List String :=
  ["Be", "Cd", "Co", "Dy", "Er", "Gd", "Hf", "Ho", "Lu", "Mg", "Re", "Ru",
   "Sc", "Tb", "Ti", "Tl", "Tm", "Y", "Zn", "Zr"]

/-- `elements = fcc_elements + bcc_elements + hcp_elements`; the later
seeded shuffle only permutes it, so membership is preserved. -/
def classElements : List String := fcc_elements ++ bcc_elements ++ hcp_elements

/-- The `if/elif` chain of the query loop: the one-hot label appended for an
element, or `none` when no branch matches (then no label is appended). -/
def crystalLabel (item : String) : Option (List ℕ) :=
  if item ∈ fcc_elements then some [1, 0, 0]
  else if item ∈ bcc_elements then some [0, 1, 0]
  else if item ∈ hcp_elements then some [0, 0, 1]
  else none

/-- The query loop of the classification notebook: for each element one
feature row is appended to `all_values` and, when an `if/elif` branch
matches, its one-hot label row is appended to `all_labels` in the same
iteration. -/
def assembleLabeled (elems : List String) (featOf : String → List ℚ) :
    List (List ℚ) × List (List ℕ) :=
  match elems with
  | [] => ([], [])
  | item :: rest =>
    let r := assembleLabeled rest featOf
    (featOf item :: r.1,
     match crystalLabel item with
     | some l => l :: r.2
     | none => r.2)

/-- An element of the declared lists always gets a one-hot label. -/
theorem crystalLabel_covered (e : String) (he : e ∈ classElements) :
    ∃ l, crystalLabel e = some l ∧
      (l = [1, 0, 0] ∨ l = [0, 1, 0] ∨ l = [0, 0, 1]) := by
  unfold crystalLabel
  rcases List.mem_append.mp he with hf | hrest
  · rcases List.mem_append.mp hf with hf | hb
    · exact ⟨[1, 0, 0], by rw [if_pos hf], Or.inl rfl⟩
    · by_cases h1 : e ∈ fcc_elements
      · exact ⟨[1, 0, 0], by rw [if_pos h1], Or.inl rfl⟩
      · exact ⟨[0, 1, 0], by rw [if_neg h1, if_pos hb], Or.inr (Or.inl rfl)⟩
  · by_cases h1 : e ∈ fcc_elements
    · exact ⟨[1, 0, 0], by rw [if_pos h1], Or.inl rfl⟩
    · by_cases h2 : e ∈ bcc_elements
      · exact ⟨[0, 1, 0], by rw [if_neg h1, if_pos h2], Or.inr (Or.inl rfl)⟩
      · exact ⟨[0, 0, 1], by rw [if_neg h1, if_neg h2, if_pos hrest],
          Or.inr (Or.inr rfl)⟩

/-- The structural core of C10, by induction over the element list. -/
theorem assembleLabeled_aligned (elems : List String) (featOf : String → List ℚ)
    (hc : ∀ e ∈ elems, e ∈ classElements) :
    (assembleLabeled elems featOf).1.length = elems.length ∧
    (assembleLabeled elems featOf).2.length = elems.length ∧
    (∀ i, i < elems.length →
      (assembleLabeled elems featOf).1.getD i [] = featOf (elems.getD i "") ∧
      crystalLabel (elems.getD i "")
        = some ((assembleLabeled elems featOf).2.getD i []) ∧
      ((assembleLabeled elems featOf).2.getD i [] = [1, 0, 0] ∨
       (assembleLabeled elems featOf).2.getD i [] = [0, 1, 0] ∨
       (assembleLabeled elems featOf).2.getD i [] = [0, 0, 1])) := by
  induction elems with
  | nil =>
    refine ⟨rfl, rfl, ?_⟩
    intro i hi
    simp at hi
  | cons a rest ih =>
    obtain ⟨l, hl, hl3⟩ := crystalLabel_covered a (hc a (List.mem_cons_self a rest))
    have hstep : assembleLabeled (a :: rest) featOf
        = (featOf a :: (assembleLabeled rest featOf).1,
           l :: (assembleLabeled rest featOf).2) := by
      show (featOf a :: (assembleLabeled rest featOf).1,
          match crystalLabel a with
          | some l => l :: (assembleLabeled rest featOf).2
          | none => (assembleLabeled rest featOf).2) = _
      rw [hl]
    obtain ⟨ih1, ih2, ih3⟩ := ih (fun e he => hc e (List.mem_cons_of_mem _ he))
    rw [hstep]
    refine ⟨by simpa using ih1, by simpa using ih2, ?_⟩
    intro i hi
    cases i with
    | zero => exact ⟨rfl, by simpa using hl, hl3⟩
    | succ i =>
      have := ih3 i (by simpa using hi)
      simpa using this

/-- C10: with every element drawn from the declared lists (the shuffled
`elements` list is their permuted concatenation), each loop iteration
appends exactly one feature row and, in the same iteration, exactly one
label row — so labels stay positionally aligned with features — and every
label row is one of the three one-hot vectors, each summing to 1; the three
declared lists are moreover pairwise disjoint and jointly cover the
element list. -/
theorem classification_assembly_onehot (elems : List String)
    (featOf : String → List ℚ)
    (hc : ∀ e ∈ elems, e ∈ classElements) :
    (assembleLabeled elems featOf).1.length = elems.length ∧
    (assembleLabeled elems featOf).2.length = elems.length ∧
    (∀ i, i < elems.length →
      (assembleLabeled elems featOf).1.getD i [] = featOf (elems.getD i "") ∧
      crystalLabel (elems.getD i "")
        = some ((assembleLabeled elems featOf).2.getD i []) ∧
      ((assembleLabeled elems featOf).2.getD i [] = [1, 0, 0] ∨
       (assembleLabeled elems featOf).2.getD i [] = [0, 1, 0] ∨
       (assembleLabeled elems featOf).2.getD i [] = [0, 0, 1]) ∧
      ((assembleLabeled elems featOf).2.getD i []).sum = 1) ∧
    (∀ e ∈ fcc_elements, e ∉ bcc_elements ∧ e ∉ hcp_elements) ∧
    (∀ e ∈ bcc_elements, e ∉ hcp_elements) ∧
    (∀ e ∈ classElements,
      e ∈ fcc_elements ∨ e ∈ bcc_elements ∨ e ∈ hcp_elements) := by
  obtain ⟨h1, h2, h3⟩ := assembleLabeled_aligned elems featOf hc
  refine ⟨h1, h2, ?_, by decide, by decide, by decide⟩
  intro i hi
  obtain ⟨ha, hb, hc3⟩ := h3 i hi
  refine ⟨ha, hb, hc3, ?_⟩
  rcases hc3 with h | h | h <;> rw [h] <;> rfl

/-- Witness for C10 with one element of each declared list. -/
theorem classification_assembly_onehot_witness :
    (assembleLabeled ["Fe", "Ag", "Zn"] fun _ => [0]).1.length
        = (["Fe", "Ag", "Zn"] : List String).length ∧
    (assembleLabeled ["Fe", "Ag", "Zn"] fun _ => [0]).2.length
        = (["Fe", "Ag", "Zn"] : List String).length ∧
    (∀ i, i < (["Fe", "Ag", "Zn"] : List String).length →
      (assembleLabeled ["Fe", "Ag", "Zn"] fun _ => [0]).1.getD i []
          = (fun _ : String => [(0 : ℚ)]) ((["Fe", "Ag", "Zn"] : List String).getD i "") ∧
      crystalLabel ((["Fe", "Ag", "Zn"] : List String).getD i "")
        = some ((assembleLabeled ["Fe", "Ag", "Zn"] fun _ => [0]).2.getD i []) ∧
      ((assembleLabeled ["Fe", "Ag", "Zn"] fun _ => [0]).2.getD i [] = [1, 0, 0] ∨
       (assembleLabeled ["Fe", "Ag", "Zn"] fun _ => [0]).2.getD i [] = [0, 1, 0] ∨
       (assembleLabeled ["Fe", "Ag", "Zn"] fun _ => [0]).2.getD i [] = [0, 0, 1]) ∧
      ((assembleLabeled ["Fe", "Ag", "Zn"] fun _ => [0]).2.getD i []).sum = 1) ∧
    (∀ e ∈ fcc_elements, e ∉ bcc_elements ∧ e ∉ hcp_elements) ∧
    (∀ e ∈ bcc_elements, e ∉ hcp_elements) ∧
    (∀ e ∈ classElements,
      e ∈ fcc_elements ∨ e ∈ bcc_elements ∨ e ∈ hcp_elements) :=
  classification_assembly_onehot ["Fe", "Ag", "Zn"] (fun _ => [0]) (by decide)

end MLCMS
